import Mathlib

/-!
Verification of the RAG core of an Instagram chatbot repository:
the document chunker (`DocumentChunker._split_text`, `chunk_document` in
`src/rag/document_processor.py`) and the retriever
(`Retriever.retrieve`, `Retriever.retrieve_and_build_context` in
`src/rag/retriever.py`).

Strings are modelled as `List Char` (`Str`); Python `str.split(sep)`,
`sep.join(...)`, slicing and length map to explicit executable functions
below.  Floating-point similarity scores are modelled as rationals.
-/

namespace RagCore

/-- Python strings, modelled as lists of characters. -/
abbrev Str := List Char

/-- Fueled worker for `splitOnStr`.  `acc` holds the characters of the piece
being built, in reverse.  The fuel argument only makes the recursion
structural; it is called with `fuel = s.length`, which is always enough
because every recursive call consumes at least one character of `s`. -/
def splitOnAuxF (sep : Str) : ℕ → Str → Str → List Str
  | _, [], acc => [acc.reverse]
  | 0, s, acc => [acc.reverse ++ s]
  | fuel + 1, c :: rest, acc =>
    if sep ≠ [] ∧ sep.isPrefixOf (c :: rest) then
      acc.reverse :: splitOnAuxF sep fuel (rest.drop (sep.length - 1)) []
    else
      splitOnAuxF sep fuel rest (c :: acc)

/-- Model of Python `s.split(sep)` for a non-empty separator string:
scan left to right, cutting at each (non-overlapping, leftmost) occurrence
of `sep`; empty pieces are kept; `[].split(sep) = [[]]`.
(Python raises on an empty separator; here `splitOnStr [] s = [s]`,
which is never relied on.) -/
def splitOnStr (sep s : Str) : List Str :=
  splitOnAuxF sep s.length s []

/-- Model of Python `sep.join(pieces)`. -/
def joinSep (sep : Str) : List Str → Str
  | [] => []
  | [x] => x
  | x :: y :: xs => x ++ sep ++ joinSep sep (y :: xs)

/-- Model of Python `s[max(0, len(s) - n):]`: the last `n` characters of
`s` (all of `s` when `n ≥ len(s)`).  Natural subtraction plays the role of
`max(0, ·)`. -/
def lastN (n : ℕ) (s : Str) : Str :=
  s.drop (s.length - n)

/-- `occursIn sep s = true` iff `sep` occurs as a contiguous substring of
`s` (Python `sep in s`). -/
def occursIn (sep : Str) : Str → Bool
  | [] => sep.isEmpty
  | c :: rest => sep.isPrefixOf (c :: rest) || occursIn sep rest

/-- Token counter behind the default token estimator: the number of maximal
whitespace-free runs of `s`, i.e. `len(s.split())` in Python.  The flag
records whether the scan is currently inside a word. -/
def countTokens : Str → Bool → ℕ
  | [], _ => 0
  | c :: rest, inWord =>
    if c.isWhitespace then countTokens rest false
    else (if inWord then 0 else 1) + countTokens rest true

/-- Model of the default token estimator
`lambda text: len(text.split())` in `retrieve_and_build_context`. -/
def defaultTokenEstimator (s : String) : ℕ :=
  countTokens s.data false

/-! ## Chunker (`DocumentChunker` in `src/rag/document_processor.py`) -/

/-- Constructor parameters of `DocumentChunker`. -/
structure ChunkerCfg where
  chunk_size : ℕ
  chunk_overlap : ℕ
  separator : Str
deriving DecidableEq, Repr

/-- The loop state of `_split_text`: the emitted chunks, the buffer
`current_chunk` (a list of sections), and the running `current_size`. -/
structure SplitState where
  chunks : List Str
  current_chunk : List Str
  current_size : ℕ
deriving DecidableEq, Repr

/-- One iteration of the word-packing loop in the oversized-section path
(lines 388-396): the state is (chunks emitted so far, current sub-chunk,
`sub_size`); a word that fits is appended, otherwise the sub-chunk is
flushed (possibly empty, when the very first word is already too big) and
the word starts a new sub-chunk. -/
def packWordsStep (cfg : ChunkerCfg) (st : List Str × List Str × ℕ) (w : Str) :
    List Str × List Str × ℕ :=
  if st.2.2 + (w.length + 1) ≤ cfg.chunk_size then
    (st.1, st.2.1 ++ [w], st.2.2 + (w.length + 1))
  else
    (st.1 ++ [joinSep [' '] st.2.1], [w], w.length + 1)

/-- The oversized-section path of `_split_text` (lines 383-399): split the
section on single spaces and greedily pack words into sub-chunks; the
leftover sub-chunk is flushed at the end. -/
def splitOversized (cfg : ChunkerCfg) (sec : Str) : List Str :=
  let words := splitOnStr [' '] sec
  let fin := words.foldl (packWordsStep cfg) ([], [], 0)
  fin.1 ++ (if fin.2.1.isEmpty then [] else [joinSep [' '] fin.2.1])

/-- One iteration of the `for section in sections` loop of `_split_text`
(lines 372-428): oversized sections flush the buffer and go through the
word packer; a section that would overflow the buffer flushes it and
carries over the overlap tail; otherwise the section is appended to the
buffer. -/
def splitStep (cfg : ChunkerCfg) (st : SplitState) (sec : Str) : SplitState :=
  let L := cfg.separator.length
  if cfg.chunk_size < sec.length then
    let flushed :=
      if st.current_chunk.isEmpty then st.chunks
      else st.chunks ++ [joinSep cfg.separator st.current_chunk]
    ⟨flushed ++ splitOversized cfg sec, [], 0⟩
  else if cfg.chunk_size < st.current_size + sec.length + L then
    let flushed := st.chunks ++ [joinSep cfg.separator st.current_chunk]
    let carried :=
      if 0 < cfg.chunk_overlap ∧ st.current_chunk ≠ [] then
        let overlap_text := lastN cfg.chunk_overlap (joinSep cfg.separator st.current_chunk)
        let pieces := splitOnStr cfg.separator overlap_text
        if 1 < pieces.length then
          (pieces.tail, (pieces.tail.map List.length).sum + L * (pieces.tail.length - 1))
        else ([], 0)
      else ([], 0)
    ⟨flushed, carried.1 ++ [sec], carried.2 + sec.length⟩
  else
    ⟨st.chunks, st.current_chunk ++ [sec], st.current_size + sec.length + L⟩

/-- Model of `DocumentChunker._split_text` (lines 353-434): split the text
on the separator, fold the sections through `splitStep`, and flush the
remaining buffer. -/
def split_text (cfg : ChunkerCfg) (text : Str) : List Str :=
  let sections := splitOnStr cfg.separator text
  let st := sections.foldl (splitStep cfg) ⟨[], [], 0⟩
  st.chunks ++
    (if st.current_chunk.isEmpty then [] else [joinSep cfg.separator st.current_chunk])

/-- A produced chunk (`DocumentChunk` dataclass). -/
structure DocumentChunk where
  content : Str
  metadata : List (String × String)
  chunk_id : String
  source_file : String
  chunk_index : ℕ
deriving DecidableEq, Repr

/-- A document (`Document` dataclass; the fields the chunker touches). -/
structure Document where
  content : Str
  metadata : List (String × String)
  source_file : String
  doc_id : String
  chunks : List DocumentChunk
deriving DecidableEq, Repr

/-- Model of `DocumentChunker.chunk_document` (lines 329-351): when the
content is non-empty, replace the document's chunk list with the split of
its content, giving chunk `i` the id `f"{doc_id}_chunk_{i}"`, a copy of the
document metadata, the source file and its index; an empty content leaves
the document untouched. -/
def chunk_document (cfg : ChunkerCfg) (d : Document) : Document :=
  if d.content.isEmpty then d
  else
    { d with
      chunks :=
        (split_text cfg d.content).enum.map fun ic =>
          { content := ic.2
            metadata := d.metadata
            chunk_id := d.doc_id ++ "_chunk_" ++ toString ic.1
            source_file := d.source_file
            chunk_index := ic.1 } }

/-! ## Retriever (`Retriever` in `src/rag/retriever.py`) -/

/-- A formatted retrieval result (the dict appended in
`Retriever.retrieve`, lines 135-140).  Similarity scores are rationals
standing for the Python floats; metadata is an association list standing
for the Python dict. -/
structure RetrievedChunk where
  chunk_id : String
  similarity_score : ℚ
  metadata : List (String × String)
  content : String
deriving DecidableEq, Repr

/-- Model of the result-formatting half of `Retriever.retrieve`
(lines 120-148), taking the index's response columns as input: convert
each distance to a similarity `1 - d`, then keep, in order, exactly the
records whose similarity reaches `similarity_threshold`.  The iteration is
over `zip(ids, similarity_scores, metadatas, documents)` as in the source
(so it truncates to the shortest column). -/
def retrieve (similarity_threshold : ℚ) (ids : List String) (distances : List ℚ)
    (metadatas : List (List (String × String))) (documents : List String) :
    List RetrievedChunk :=
  let similarity_scores := distances.map (fun d => 1 - d)
  (ids.zip (similarity_scores.zip (metadatas.zip documents))).foldl
    (fun acc r =>
      if similarity_threshold ≤ r.2.1 then
        acc ++ [{ chunk_id := r.1
                  similarity_score := r.2.1
                  metadata := r.2.2.1
                  content := r.2.2.2 }]
      else acc)
    []

/-- Python `key in metadata` / `metadata[key]` on the metadata dict. -/
def lookupMeta (m : List (String × String)) (k : String) : Option String :=
  (m.find? (fun kv => kv.1 = k)).map (fun kv => kv.2)

/-- The metadata keys copied into a source record (line 215). -/
def sourceKeys : List String := ["title", "source", "source_file", "doc_id"]

/-- A source record emitted by `retrieve_and_build_context`
(lines 208-219): chunk id, similarity score, and whichever of
`sourceKeys` are present in the chunk's metadata. -/
structure SourceRecord where
  chunk_id : String
  similarity_score : ℚ
  fields : List (String × String)
deriving DecidableEq, Repr

/-- Builds the source record of one included chunk (lines 209-217). -/
def mkSource (c : RetrievedChunk) : SourceRecord :=
  { chunk_id := c.chunk_id
    similarity_score := c.similarity_score
    fields := sourceKeys.filterMap fun k => (lookupMeta c.metadata k).map fun v => (k, v) }

/-- The dictionary returned by `retrieve_and_build_context`.
`total_tokens` is optional because the zero-result response omits that
key while the success path includes it. -/
structure ContextResult where
  context : String
  sources : List SourceRecord
  query : String
  chunks_used : ℕ
  total_tokens : Option ℕ
deriving DecidableEq, Repr

/-- The accumulators of the packing loop (lines 191-222):
`context_parts`, `sources`, final `total_tokens` and `chunks_used`. -/
structure PackState where
  context_parts : List String
  sources : List SourceRecord
  total_tokens : ℕ
  chunks_used : ℕ
deriving DecidableEq, Repr

/-- The `for chunk in retrieved_chunks` packing loop (lines 196-222),
with `total` the running token count on entry: the first chunk whose
tokens would push `total` past `max_tokens` stops the loop (`break`);
otherwise the chunk's content is appended, a source record is emitted when
its metadata dict is non-empty, and the totals advance. -/
def packLoop (est : String → ℕ) (max_tokens : ℕ) :
    List RetrievedChunk → ℕ → PackState
  | [], total => ⟨[], [], total, 0⟩
  | c :: rest, total =>
    let chunk_tokens := est c.content
    if max_tokens < total + chunk_tokens then ⟨[], [], total, 0⟩
    else
      let r := packLoop est max_tokens rest (total + chunk_tokens)
      ⟨c.content :: r.context_parts,
       (if c.metadata.isEmpty then r.sources else mkSource c :: r.sources),
       r.total_tokens,
       r.chunks_used + 1⟩

/-- Model of `Retriever.retrieve_and_build_context` (lines 177-233), taking
the threshold-filtered retrieval output as input: an empty result list
returns the empty context without a `total_tokens` field; otherwise the
results are packed greedily and joined with `"\n\n"`. -/
def retrieve_and_build_context (retrieved : List RetrievedChunk) (query : String)
    (max_tokens : ℕ) (est : String → ℕ) : ContextResult :=
  if retrieved.isEmpty then
    { context := "", sources := [], query := query, chunks_used := 0, total_tokens := none }
  else
    let r := packLoop est max_tokens retrieved 0
    { context := String.intercalate "\n\n" r.context_parts
      sources := r.sources
      query := query
      chunks_used := r.chunks_used
      total_tokens := some r.total_tokens }

/-! ## Concrete fixtures used in examples and counterexamples -/

/-- Chunker with `chunk_size=3`, `chunk_overlap=0`, newline separator. -/
def cfgSmall : ChunkerCfg := ⟨3, 0, ['\n']⟩

/-- Chunker with the spec's `chunk_size=100`, `chunk_overlap=20`. -/
def cfg100 : ChunkerCfg := ⟨100, 20, ['\n']⟩

/-- A two-line document: content `"ab\ncd"`. -/
def docAbCd : Document :=
  ⟨"ab\ncd".toList, [("title", "T")], "t.txt", "d", []⟩

/-- A document whose single line is longer than `chunk_size` and whose
first word alone is at least `chunk_size` long: content `"abcd ef"`. -/
def docOversized : Document :=
  ⟨"abcd ef".toList, [("title", "T")], "t.txt", "d10", []⟩

/-- A document with empty content. -/
def docEmpty : Document :=
  ⟨[], [("title", "T")], "t.txt", "d9", []⟩

/-- 85 a's, a line of 10 b's, a 99-character line of two 49-character
words, and a final `"d"` line: chunking it with `cfg100` produces a
110-character middle chunk. -/
def textLong : Str :=
  List.replicate 85 'a' ++ '\n' ::
    (List.replicate 10 'b' ++ '\n' ::
      (List.replicate 49 'c' ++ ' ' :: List.replicate 49 'c' ++ '\n' :: ['d']))

/-- The 110-character chunk produced from `textLong`: the carried-over
line of b's, a separator, and the 99-character line. -/
def chunkLong : Str :=
  List.replicate 10 'b' ++ '\n' ::
    (List.replicate 49 'c' ++ ' ' :: List.replicate 49 'c')

/-- Retrieval results with the metadata of the repository's own test. -/
def rcContent1 : RetrievedChunk :=
  ⟨"chunk1", 1, [("title", "Test 1"), ("doc_id", "doc1")], "Content 1"⟩

def rcContent2 : RetrievedChunk :=
  ⟨"chunk2", 1, [("title", "Test 2"), ("doc_id", "doc2")], "Content 2"⟩

/-- A retrieval result whose metadata dict is empty. -/
def rcNoMeta : RetrievedChunk := ⟨"c1", 1, [], "Hello world"⟩

/-- A buffer state about to be flushed, used to exercise the overlap
carry-over: two buffered sections `"abcdef"` and `"gh"`. -/
def stCarry : SplitState := ⟨[], ["abcdef".toList, "gh".toList], 10⟩

/-- Chunker with `chunk_size=10`, `chunk_overlap=5`, newline separator. -/
def cfgCarry : ChunkerCfg := ⟨10, 5, ['\n']⟩

/-! ## Lemmas on the string model -/

theorem isPrefixOf_append_drop :
    ∀ l₁ l₂ : Str, l₁.isPrefixOf l₂ = true → l₂ = l₁ ++ l₂.drop l₁.length := by
  intro l₁
  induction l₁ with
  | nil => intro l₂ _; simp
  | cons a as ih =>
    intro l₂ h
    cases l₂ with
    | nil => simp [List.isPrefixOf] at h
    | cons b bs =>
      simp only [List.isPrefixOf, Bool.and_eq_true, beq_iff_eq] at h
      simpa [h.1] using ih bs h.2

theorem splitOnAuxF_ne_nil (sep : Str) :
    ∀ fuel s acc, splitOnAuxF sep fuel s acc ≠ [] := by
  intro fuel
  induction fuel with
  | zero => intro s acc; cases s <;> simp [splitOnAuxF]
  | succ n ih =>
    intro s acc
    cases s with
    | nil => simp [splitOnAuxF]
    | cons c rest =>
      rw [splitOnAuxF]
      split
      · simp
      · exact ih rest (c :: acc)

theorem splitOnStr_ne_nil (sep s : Str) : splitOnStr sep s ≠ [] :=
  splitOnAuxF_ne_nil sep s.length s []

theorem joinSep_cons_of_ne_nil (sep : Str) (x : Str) {xs : List Str} (h : xs ≠ []) :
    joinSep sep (x :: xs) = x ++ sep ++ joinSep sep xs := by
  cases xs with
  | nil => exact absurd rfl h
  | cons y ys => rfl

theorem joinSep_splitOnAuxF (sep : Str) :
    ∀ fuel s acc, s.length ≤ fuel →
      joinSep sep (splitOnAuxF sep fuel s acc) = acc.reverse ++ s := by
  intro fuel
  induction fuel with
  | zero =>
    intro s acc h
    have : s = [] := List.eq_nil_of_length_eq_zero (Nat.le_zero.mp h)
    subst this; simp [splitOnAuxF, joinSep]
  | succ n ih =>
    intro s acc h
    cases s with
    | nil => simp [splitOnAuxF, joinSep]
    | cons c rest =>
      rw [splitOnAuxF]
      split
      · rename_i hcond
        obtain ⟨hne, hpre⟩ := hcond
        obtain ⟨s₀, sep', rfl⟩ : ∃ a l, sep = a :: l := by
          cases sep with
          | nil => exact absurd rfl hne
          | cons a l => exact ⟨a, l, rfl⟩
        rw [joinSep_cons_of_ne_nil _ _ (splitOnAuxF_ne_nil _ _ _ _)]
        have hlen : (rest.drop ((s₀ :: sep').length - 1)).length ≤ n := by
          have : rest.length ≤ n := by simpa using h
          have := List.length_drop ((s₀ :: sep').length - 1) rest
          omega
        rw [ih _ _ hlen]
        have hdecomp := isPrefixOf_append_drop (s₀ :: sep') (c :: rest) hpre
        have hdrop : (c :: rest).drop (s₀ :: sep').length = rest.drop ((s₀ :: sep').length - 1) := by
          simp [List.length_cons]
        rw [hdrop] at hdecomp
        conv_rhs => rw [hdecomp]
        simp [List.append_assoc]
      · have : rest.length ≤ n := by simpa using h
        rw [ih rest (c :: acc) this]
        simp

theorem joinSep_splitOnStr (sep s : Str) : joinSep sep (splitOnStr sep s) = s := by
  simpa using joinSep_splitOnAuxF sep s.length s [] le_rfl

theorem length_lastN (n : ℕ) (s : Str) : (lastN n s).length ≤ n := by
  simp only [lastN, List.length_drop]
  omega

theorem one_lt_length_splitOnAuxF_iff (sep : Str) (hsep : sep ≠ []) :
    ∀ fuel s acc, s.length ≤ fuel →
      (1 < (splitOnAuxF sep fuel s acc).length ↔ occursIn sep s = true) := by
  intro fuel
  induction fuel with
  | zero =>
    intro s acc h
    have : s = [] := List.eq_nil_of_length_eq_zero (Nat.le_zero.mp h)
    subst this
    simp [splitOnAuxF, occursIn, hsep]
  | succ n ih =>
    intro s acc h
    cases s with
    | nil => simp [splitOnAuxF, occursIn, hsep]
    | cons c rest =>
      rw [splitOnAuxF, occursIn]
      split
      · rename_i hcond
        simp only [hcond.2, Bool.true_or, iff_true, List.length_cons]
        have := List.length_pos.mpr (splitOnAuxF_ne_nil sep n (rest.drop (sep.length - 1)) [])
        omega
      · rename_i hcond
        have hpre : sep.isPrefixOf (c :: rest) = false := by
          by_contra hx
          exact hcond ⟨hsep, by simpa using hx⟩
        have : rest.length ≤ n := by simpa using h
        rw [ih rest (c :: acc) this, hpre]
        simp

theorem occursIn_iff_one_lt_length_splitOnStr (sep s : Str) (hsep : sep ≠ []) :
    occursIn sep s = true ↔ 1 < (splitOnStr sep s).length :=
  (one_lt_length_splitOnAuxF_iff sep hsep s.length s [] le_rfl).symm

theorem length_joinSep (sep : Str) :
    ∀ l : List Str, l ≠ [] →
      (joinSep sep l).length = (l.map List.length).sum + sep.length * (l.length - 1) := by
  intro l
  induction l with
  | nil => intro h; exact absurd rfl h
  | cons x xs ih =>
    intro _
    cases xs with
    | nil => simp [joinSep]
    | cons y ys =>
      rw [joinSep_cons_of_ne_nil _ _ (by simp)]
      have hih := ih (by simp)
      simp only [List.map_cons, List.sum_cons, List.length_append, List.length_cons,
        Nat.add_sub_cancel] at hih ⊢
      have hm : sep.length * (ys.length + 1) = sep.length * ys.length + sep.length :=
        Nat.mul_succ _ _
      omega

theorem mem_splitOnAuxF_single (ch : Char) :
    ∀ fuel s acc, s.length ≤ fuel → (∀ a ∈ acc, a ≠ ch) →
      ∀ p ∈ splitOnAuxF [ch] fuel s acc, ∀ a ∈ p, a ≠ ch := by
  intro fuel
  induction fuel with
  | zero =>
    intro s acc h hacc
    have : s = [] := List.eq_nil_of_length_eq_zero (Nat.le_zero.mp h)
    subst this
    simpa [splitOnAuxF] using fun a ha => hacc a (List.mem_reverse.mp ha)
  | succ n ih =>
    intro s acc h hacc
    cases s with
    | nil =>
      simpa [splitOnAuxF] using fun a ha => hacc a (List.mem_reverse.mp ha)
    | cons c rest =>
      rw [splitOnAuxF]
      have hrest : rest.length ≤ n := by simpa using h
      split
      · intro p hp
        rcases List.mem_cons.mp hp with rfl | hp'
        · exact fun a ha => hacc a (List.mem_reverse.mp ha)
        · exact ih (rest.drop 0) [] (by simpa using hrest) (by simp) p (by simpa using hp')
      · rename_i hcond
        have hc : c ≠ ch := by
          intro hcc
          exact hcond ⟨by simp, by simp [List.isPrefixOf, hcc]⟩
        refine ih rest (c :: acc) hrest ?_
        intro a ha
        rcases List.mem_cons.mp ha with rfl | ha'
        · exact hc
        · exact hacc a ha'

theorem mem_splitOnStr_single (ch : Char) (s : Str) :
    ∀ p ∈ splitOnStr [ch] s, ∀ a ∈ p, a ≠ ch :=
  mem_splitOnAuxF_single ch s.length s [] le_rfl (by simp)

theorem joinSep_append_single (sep : Str) (xs : List Str) (x : Str) (h : xs ≠ []) :
    joinSep sep (xs ++ [x]) = joinSep sep xs ++ sep ++ x := by
  induction xs with
  | nil => exact absurd rfl h
  | cons y ys ih =>
    cases ys with
    | nil => simp [joinSep]
    | cons z zs =>
      rw [List.cons_append, joinSep_cons_of_ne_nil _ _ (by simp),
        joinSep_cons_of_ne_nil _ _ (by simp), ih (by simp)]
      simp [List.append_assoc]

theorem joinSep_append_concat (sep : Str) (xs : List Str) (a b : Str) :
    joinSep sep (xs ++ [a ++ b]) = joinSep sep (xs ++ [a]) ++ b := by
  cases xs with
  | nil => simp [joinSep]
  | cons y ys =>
    rw [joinSep_append_single _ _ _ (by simp), joinSep_append_single _ _ _ (by simp)]
    simp [List.append_assoc]

theorem joinSep_cons_eq_join (sep : Str) (x : Str) (xs : List Str) :
    joinSep sep (x :: xs) = x ++ (xs.map (fun s => sep ++ s)).flatten := by
  induction xs generalizing x with
  | nil => simp [joinSep]
  | cons y ys ih =>
    rw [joinSep_cons_of_ne_nil _ _ (by simp), ih]
    simp [List.append_assoc]


/-! ## Reconstruction with zero overlap -/

/-- The text represented by a split state: emitted chunks and the pending
buffer, all joined by the separator. -/
def joinAll (cfg : ChunkerCfg) (st : SplitState) : Str :=
  joinSep cfg.separator (st.chunks ++ [joinSep cfg.separator st.current_chunk])

/-- Branch equation: an oversized section (length above `chunk_size`). -/
theorem splitStep_oversized (cfg : ChunkerCfg) (st : SplitState) (sec : Str)
    (hbig : cfg.chunk_size < sec.length) :
    splitStep cfg st sec =
      ⟨(if st.current_chunk.isEmpty then st.chunks
        else st.chunks ++ [joinSep cfg.separator st.current_chunk]) ++
          splitOversized cfg sec, [], 0⟩ := by
  rw [splitStep]
  simp [hbig]

/-- Branch equation: a section that overflows the buffer while the overlap
carry-over is disabled (zero overlap or empty buffer). -/
theorem splitStep_flush_nocarry (cfg : ChunkerCfg) (st : SplitState) (sec : Str)
    (hbig : ¬ cfg.chunk_size < sec.length)
    (hflush : cfg.chunk_size < st.current_size + sec.length + cfg.separator.length)
    (hnc : ¬ (0 < cfg.chunk_overlap ∧ st.current_chunk ≠ [])) :
    splitStep cfg st sec =
      ⟨st.chunks ++ [joinSep cfg.separator st.current_chunk], [sec], sec.length⟩ := by
  rw [splitStep]
  simp [hbig, hflush, hnc]

/-- Branch equation: a section that overflows the buffer with the overlap
carry-over enabled. -/
theorem splitStep_flush_carry (cfg : ChunkerCfg) (st : SplitState) (sec : Str)
    (hbig : ¬ cfg.chunk_size < sec.length)
    (hflush : cfg.chunk_size < st.current_size + sec.length + cfg.separator.length)
    (hov : 0 < cfg.chunk_overlap) (hcur : st.current_chunk ≠ []) :
    splitStep cfg st sec =
      if 1 < (splitOnStr cfg.separator
          (lastN cfg.chunk_overlap (joinSep cfg.separator st.current_chunk))).length then
        ⟨st.chunks ++ [joinSep cfg.separator st.current_chunk],
          (splitOnStr cfg.separator
            (lastN cfg.chunk_overlap (joinSep cfg.separator st.current_chunk))).tail ++ [sec],
          (((splitOnStr cfg.separator
              (lastN cfg.chunk_overlap (joinSep cfg.separator st.current_chunk))).tail.map
                List.length).sum +
            cfg.separator.length *
              ((splitOnStr cfg.separator
                (lastN cfg.chunk_overlap
                  (joinSep cfg.separator st.current_chunk))).tail.length - 1)) +
            sec.length⟩
      else
        ⟨st.chunks ++ [joinSep cfg.separator st.current_chunk], [sec], sec.length⟩ := by
  rw [splitStep]
  simp only [hbig, if_false, hflush, if_true, hov, hcur, ne_eq, not_false_iff, and_self]
  split <;> simp

/-- Branch equation: a section appended to the buffer. -/
theorem splitStep_append (cfg : ChunkerCfg) (st : SplitState) (sec : Str)
    (hbig : ¬ cfg.chunk_size < sec.length)
    (hfits : ¬ cfg.chunk_size < st.current_size + sec.length + cfg.separator.length) :
    splitStep cfg st sec =
      ⟨st.chunks, st.current_chunk ++ [sec],
        st.current_size + sec.length + cfg.separator.length⟩ := by
  rw [splitStep]
  simp [hbig, hfits]

theorem splitStep_joinAll (cfg : ChunkerCfg) (st : SplitState) (sec : Str)
    (hov : cfg.chunk_overlap = 0) (hcur : st.current_chunk ≠ [])
    (hsec : sec.length + cfg.separator.length ≤ cfg.chunk_size) :
    joinAll cfg (splitStep cfg st sec) = joinAll cfg st ++ cfg.separator ++ sec ∧
      (splitStep cfg st sec).current_chunk ≠ [] := by
  have hbig : ¬ cfg.chunk_size < sec.length := by omega
  by_cases hflush : cfg.chunk_size < st.current_size + sec.length + cfg.separator.length
  · rw [splitStep_flush_nocarry cfg st sec hbig hflush (by simp [hov])]
    refine ⟨?_, by simp⟩
    show joinSep cfg.separator
        ((st.chunks ++ [joinSep cfg.separator st.current_chunk]) ++
          [joinSep cfg.separator [sec]]) = _
    rw [joinSep_append_single _ _ _ (by simp)]
    rfl
  · rw [splitStep_append cfg st sec hbig hflush]
    refine ⟨?_, by simp [hcur]⟩
    show joinSep cfg.separator
        (st.chunks ++ [joinSep cfg.separator (st.current_chunk ++ [sec])]) = _
    rw [joinSep_append_single _ _ _ hcur, List.append_assoc,
      joinSep_append_concat cfg.separator st.chunks
        (joinSep cfg.separator st.current_chunk) (cfg.separator ++ sec)]
    simp [joinAll, List.append_assoc]

theorem foldl_splitStep_joinAll (cfg : ChunkerCfg) (hov : cfg.chunk_overlap = 0) :
    ∀ (secs : List Str) (st : SplitState),
      (∀ s ∈ secs, s.length + cfg.separator.length ≤ cfg.chunk_size) →
      st.current_chunk ≠ [] →
      joinAll cfg (secs.foldl (splitStep cfg) st) =
          joinAll cfg st ++ (secs.map (fun s => cfg.separator ++ s)).flatten ∧
        (secs.foldl (splitStep cfg) st).current_chunk ≠ [] := by
  intro secs
  induction secs with
  | nil => intro st _ hcur; simpa using hcur
  | cons s ss ih =>
    intro st hsmall hcur
    have hstep := splitStep_joinAll cfg st s hov hcur (hsmall s (by simp))
    have hrec := ih (splitStep cfg st s) (fun x hx => hsmall x (by simp [hx])) hstep.2
    refine ⟨?_, by simpa using hrec.2⟩
    simp only [List.foldl_cons, List.map_cons, List.flatten_cons]
    rw [hrec.1, hstep.1]
    simp [List.append_assoc]

/-- The core no-loss statement: with zero overlap and every section small
enough to fit in a chunk together with one separator, the chunks joined by
the separator reconstruct the text. -/
theorem joinSep_split_text (cfg : ChunkerCfg) (text : Str)
    (hov : cfg.chunk_overlap = 0)
    (hsmall : ∀ s ∈ splitOnStr cfg.separator text,
      s.length + cfg.separator.length ≤ cfg.chunk_size) :
    joinSep cfg.separator (split_text cfg text) = text := by
  obtain ⟨s0, rest, hsecs⟩ : ∃ a l, splitOnStr cfg.separator text = a :: l := by
    rcases h : splitOnStr cfg.separator text with _ | ⟨a, l⟩
    · exact absurd h (splitOnStr_ne_nil _ _)
    · exact ⟨a, l, rfl⟩
  have hs0 : s0.length + cfg.separator.length ≤ cfg.chunk_size := by
    exact hsmall s0 (by simp [hsecs])
  have hfirst : splitStep cfg ⟨[], [], 0⟩ s0 =
      ⟨[], [] ++ [s0], 0 + s0.length + cfg.separator.length⟩ :=
    splitStep_append cfg ⟨[], [], 0⟩ s0 (by omega)
      (by show ¬ cfg.chunk_size < 0 + s0.length + cfg.separator.length; omega)
  have hrest : ∀ s ∈ rest, s.length + cfg.separator.length ≤ cfg.chunk_size := by
    intro s hs; exact hsmall s (by simp [hsecs, hs])
  have hfold := foldl_splitStep_joinAll cfg hov rest (splitStep cfg ⟨[], [], 0⟩ s0)
    hrest (by rw [hfirst]; simp)
  have hjoin0 : joinAll cfg (splitStep cfg ⟨[], [], 0⟩ s0) = s0 := by
    rw [hfirst]; simp [joinAll, joinSep]
  have hout : split_text cfg text =
      ((splitOnStr cfg.separator text).foldl (splitStep cfg) ⟨[], [], 0⟩).chunks ++
        [joinSep cfg.separator
          ((splitOnStr cfg.separator text).foldl (splitStep cfg) ⟨[], [], 0⟩).current_chunk] := by
    rw [split_text]
    have hne : ((splitOnStr cfg.separator text).foldl (splitStep cfg)
        ⟨[], [], 0⟩).current_chunk ≠ [] := by
      rw [hsecs, List.foldl_cons]
      exact hfold.2
    simp only [List.isEmpty_iff, hne, if_false]
  rw [hout]
  have : joinSep cfg.separator
      (((splitOnStr cfg.separator text).foldl (splitStep cfg) ⟨[], [], 0⟩).chunks ++
        [joinSep cfg.separator
          ((splitOnStr cfg.separator text).foldl (splitStep cfg) ⟨[], [], 0⟩).current_chunk]) =
      joinAll cfg ((splitOnStr cfg.separator text).foldl (splitStep cfg) ⟨[], [], 0⟩) := rfl
  rw [this, hsecs, List.foldl_cons, hfold.1, hjoin0, ← joinSep_cons_eq_join, ← hsecs]
  exact joinSep_splitOnStr _ _
/-! ## Chunk length bound -/

/-- A chunk admitted by the length-bound property: within `bound`
characters, or entirely space-free (a single over-long word passed through
whole by the word packer). -/
def GoodChunk (bound : ℕ) (c : Str) : Prop :=
  c.length ≤ bound ∨ ∀ a ∈ c, a ≠ ' '

theorem GoodChunk.mono {b b' : ℕ} {c : Str} (h : b ≤ b') :
    GoodChunk b c → GoodChunk b' c := by
  rintro (hc | hc)
  · exact Or.inl (le_trans hc h)
  · exact Or.inr hc

/-- Generic invariant preservation through a left fold. -/
theorem foldl_inv {α β : Type} (f : β → α → β) (P : β → Prop) (Q : α → Prop) :
    ∀ (l : List α) (init : β), (∀ a ∈ l, Q a) → P init →
      (∀ st a, Q a → P st → P (f st a)) → P (l.foldl f init) := by
  intro l
  induction l with
  | nil => intro init _ h _; exact h
  | cons x xs ih =>
    intro init hq h hstep
    exact ih _ (fun a ha => hq a (by simp [ha]))
      (hstep init x (hq x (by simp)) h) hstep

theorem sum_map_length_add_one (l : List Str) :
    (l.map (fun w => w.length + 1)).sum = (l.map List.length).sum + l.length := by
  induction l with
  | nil => simp
  | cons x xs ih => simp [ih]; omega

theorem length_joinSep_space (l : List Str) (h : l ≠ []) :
    (joinSep [' '] l).length + 1 = (l.map (fun w => w.length + 1)).sum := by
  rw [length_joinSep _ l h, sum_map_length_add_one]
  have : l.length ≠ 0 := fun hl => h (List.length_eq_zero.mp hl)
  simp only [List.length_cons, List.length_nil]
  omega

/-- The invariant of the word-packing loop: emitted sub-chunks are good,
`sub_size` counts each buffered word plus one space, and the buffer either
fits the budget or is a single space-free word. -/
def PackInv (cfg : ChunkerCfg) (st : List Str × List Str × ℕ) : Prop :=
  (∀ c ∈ st.1, GoodChunk cfg.chunk_size c) ∧
  st.2.2 = (st.2.1.map (fun w => w.length + 1)).sum ∧
  (st.2.2 ≤ cfg.chunk_size ∨ ∃ w, st.2.1 = [w] ∧ ∀ a ∈ w, a ≠ ' ')

theorem flush_sub_good (cfg : ChunkerCfg) (sub : List Str) (sz : ℕ)
    (hsz : sz = (sub.map (fun w => w.length + 1)).sum)
    (hd : sz ≤ cfg.chunk_size ∨ ∃ w, sub = [w] ∧ ∀ a ∈ w, a ≠ ' ') :
    GoodChunk cfg.chunk_size (joinSep [' '] sub) := by
  rcases hd with hle | ⟨w, rfl, hw⟩
  · left
    cases sub with
    | nil => simp [joinSep]
    | cons x xs =>
      have := length_joinSep_space (x :: xs) (by simp)
      omega
  · right
    simpa [joinSep] using hw

theorem packWordsStep_inv (cfg : ChunkerCfg) (st : List Str × List Str × ℕ)
    (w : Str) (hw : ∀ a ∈ w, a ≠ ' ') (hinv : PackInv cfg st) :
    PackInv cfg (packWordsStep cfg st w) := by
  obtain ⟨hchunks, hsum, hd⟩ := hinv
  rw [packWordsStep]
  split
  · rename_i hfits
    exact ⟨hchunks, by simp [hsum], Or.inl hfits⟩
  · refine ⟨?_, by simp, Or.inr ⟨w, rfl, hw⟩⟩
    intro c hc
    rcases List.mem_append.mp hc with h | h
    · exact hchunks c h
    · rw [List.mem_singleton.mp h]
      exact flush_sub_good cfg st.2.1 st.2.2 hsum hd

theorem splitOversized_good (cfg : ChunkerCfg) (sec : Str) :
    ∀ c ∈ splitOversized cfg sec, GoodChunk cfg.chunk_size c := by
  rw [splitOversized]
  have hfin : PackInv cfg ((splitOnStr [' '] sec).foldl (packWordsStep cfg) ([], [], 0)) :=
    foldl_inv (packWordsStep cfg) (PackInv cfg) (fun w => ∀ a ∈ w, a ≠ ' ')
      (splitOnStr [' '] sec) ([], [], 0) (mem_splitOnStr_single ' ' sec)
      ⟨by simp, by simp, Or.inl (Nat.zero_le _)⟩
      (fun st a ha h => packWordsStep_inv cfg st a ha h)
  intro c hc
  rcases List.mem_append.mp hc with h | h
  · exact hfin.1 c h
  · have : c = joinSep [' ']
        ((splitOnStr [' '] sec).foldl (packWordsStep cfg) ([], [], 0)).2.1 := by
      rcases hif : (((splitOnStr [' '] sec).foldl (packWordsStep cfg) ([], [], 0)).2.1.isEmpty) with _ | _ <;>
        simp [hif] at h
      exact h
    rw [this]
    exact flush_sub_good cfg _ _ hfin.2.1 hfin.2.2

/-- The invariant of the section loop: emitted chunks are within
`chunk_size + chunk_overlap` or space-free, the joined buffer is at most
`current_size` plus one separator, and `current_size` plus one separator
stays within `chunk_size + chunk_overlap`. -/
def SplitInv (cfg : ChunkerCfg) (st : SplitState) : Prop :=
  (∀ c ∈ st.chunks, GoodChunk (cfg.chunk_size + cfg.chunk_overlap) c) ∧
  (joinSep cfg.separator st.current_chunk).length ≤
    st.current_size + cfg.separator.length ∧
  st.current_size + cfg.separator.length ≤ cfg.chunk_size + cfg.chunk_overlap

theorem splitStep_inv (cfg : ChunkerCfg)
    (hLC : cfg.separator.length ≤ cfg.chunk_overlap)
    (st : SplitState) (sec : Str) (h : SplitInv cfg st) :
    SplitInv cfg (splitStep cfg st sec) := by
  obtain ⟨hchunks, hA, hS⟩ := h
  have hflushGood : GoodChunk (cfg.chunk_size + cfg.chunk_overlap)
      (joinSep cfg.separator st.current_chunk) := Or.inl (by omega)
  by_cases hbig : cfg.chunk_size < sec.length
  · rw [splitStep_oversized cfg st sec hbig]
    refine ⟨?_, by simp [joinSep], by simp; omega⟩
    intro c hc
    rcases List.mem_append.mp hc with hm | hm
    · split at hm
      · exact hchunks c hm
      · rcases List.mem_append.mp hm with hm2 | hm2
        · exact hchunks c hm2
        · rw [List.mem_singleton.mp hm2]; exact hflushGood
    · exact (splitOversized_good cfg sec c hm).mono (Nat.le_add_right _ _)
  · have hsecK : sec.length ≤ cfg.chunk_size := by omega
    by_cases hflush : cfg.chunk_size < st.current_size + sec.length + cfg.separator.length
    · have hnewChunks : ∀ c ∈ st.chunks ++ [joinSep cfg.separator st.current_chunk],
          GoodChunk (cfg.chunk_size + cfg.chunk_overlap) c := by
        intro c hc
        rcases List.mem_append.mp hc with hm | hm
        · exact hchunks c hm
        · rw [List.mem_singleton.mp hm]; exact hflushGood
      by_cases hcarry : 0 < cfg.chunk_overlap ∧ st.current_chunk ≠ []
      · rw [splitStep_flush_carry cfg st sec hbig hflush hcarry.1 hcarry.2]
        by_cases hp : 1 < (splitOnStr cfg.separator
            (lastN cfg.chunk_overlap (joinSep cfg.separator st.current_chunk))).length
        · rw [if_pos hp]
          obtain ⟨p0, tail, hptl⟩ : ∃ a l, splitOnStr cfg.separator
              (lastN cfg.chunk_overlap (joinSep cfg.separator st.current_chunk)) = a :: l := by
            rcases hx : splitOnStr cfg.separator
                (lastN cfg.chunk_overlap (joinSep cfg.separator st.current_chunk)) with
              _ | ⟨a, l⟩
            · exact absurd hx (splitOnStr_ne_nil _ _)
            · exact ⟨a, l, rfl⟩
          have htl : tail ≠ [] := by
            intro hx
            rw [hptl, hx] at hp
            simp at hp
          have hovlen : (lastN cfg.chunk_overlap
              (joinSep cfg.separator st.current_chunk)).length ≤ cfg.chunk_overlap :=
            length_lastN _ _
          have hoveq := joinSep_splitOnStr cfg.separator
            (lastN cfg.chunk_overlap (joinSep cfg.separator st.current_chunk))
          rw [hptl, joinSep_cons_of_ne_nil _ _ htl] at hoveq
          have hovparts := congrArg List.length hoveq
          simp only [List.length_append] at hovparts
          have hJC : (joinSep cfg.separator tail).length + cfg.separator.length ≤
              cfg.chunk_overlap := by omega
          have hjl : (joinSep cfg.separator tail).length =
              (tail.map List.length).sum + cfg.separator.length * (tail.length - 1) :=
            length_joinSep _ tail htl
          rw [hptl]
          simp only [List.tail_cons]
          refine ⟨hnewChunks, ?_, ?_⟩
          · dsimp only
            rw [joinSep_append_single _ _ _ htl]
            simp only [List.length_append]
            omega
          · dsimp only
            omega
        · rw [if_neg hp]
          refine ⟨hnewChunks, ?_, by dsimp only; omega⟩
          show (joinSep cfg.separator [sec]).length ≤ sec.length + cfg.separator.length
          simp [joinSep]
      · rw [splitStep_flush_nocarry cfg st sec hbig hflush hcarry]
        refine ⟨hnewChunks, ?_, by dsimp only; omega⟩
        show (joinSep cfg.separator [sec]).length ≤ sec.length + cfg.separator.length
        simp [joinSep]
    · rw [splitStep_append cfg st sec hbig hflush]
      refine ⟨hchunks, ?_, by dsimp only; omega⟩
      dsimp only
      cases hcur : st.current_chunk with
      | nil =>
        show (joinSep cfg.separator ([] ++ [sec])).length ≤ _
        simp [joinSep]
        omega
      | cons x xs =>
        rw [← hcur]
        rw [joinSep_append_single _ _ _ (by simp [hcur])]
        simp only [List.length_append]
        omega

/-- Every chunk produced by `_split_text` is within
`chunk_size + chunk_overlap` characters or is space-free, provided the
separator is at most `chunk_overlap` characters long. -/
theorem split_text_good (cfg : ChunkerCfg)
    (hLC : cfg.separator.length ≤ cfg.chunk_overlap) (text : Str) :
    ∀ c ∈ split_text cfg text, GoodChunk (cfg.chunk_size + cfg.chunk_overlap) c := by
  rw [split_text]
  have hinv : SplitInv cfg
      ((splitOnStr cfg.separator text).foldl (splitStep cfg) ⟨[], [], 0⟩) :=
    foldl_inv (splitStep cfg) (SplitInv cfg) (fun _ => True)
      (splitOnStr cfg.separator text) ⟨[], [], 0⟩ (fun _ _ => trivial)
      ⟨by simp, by simp [joinSep], by simp; omega⟩
      (fun st a _ hst => splitStep_inv cfg hLC st a hst)
  intro c hc
  rcases List.mem_append.mp hc with hm | hm
  · exact hinv.1 c hm
  · have : c = joinSep cfg.separator
        ((splitOnStr cfg.separator text).foldl (splitStep cfg)
          ⟨[], [], 0⟩).current_chunk := by
      split at hm
      · simp at hm
      · exact List.mem_singleton.mp hm
    rw [this]
    exact Or.inl (by have := hinv.2.1; have := hinv.2.2; omega)


/-! ## Non-emptiness of the chunk sequence -/

theorem packWordsStep_sub_ne_nil (cfg : ChunkerCfg) (st : List Str × List Str × ℕ)
    (w : Str) : (packWordsStep cfg st w).2.1 ≠ [] := by
  rw [packWordsStep]
  split <;> simp

theorem splitOversized_ne_nil (cfg : ChunkerCfg) (sec : Str) :
    splitOversized cfg sec ≠ [] := by
  rw [splitOversized]
  obtain ⟨w0, ws, hw⟩ : ∃ a l, splitOnStr [' '] sec = a :: l := by
    rcases hx : splitOnStr [' '] sec with _ | ⟨a, l⟩
    · exact absurd hx (splitOnStr_ne_nil _ _)
    · exact ⟨a, l, rfl⟩
  have hsub : ((splitOnStr [' '] sec).foldl (packWordsStep cfg) ([], [], 0)).2.1 ≠ [] := by
    rw [hw, List.foldl_cons]
    exact foldl_inv (packWordsStep cfg) (fun st => st.2.1 ≠ []) (fun _ => True)
      ws _ (fun _ _ => trivial) (packWordsStep_sub_ne_nil cfg ([], [], 0) w0)
      (fun st a _ _ => packWordsStep_sub_ne_nil cfg st a)
  simp only [List.isEmpty_iff, hsub, if_false]
  simp

theorem splitStep_chunks_or_cur (cfg : ChunkerCfg) (st : SplitState) (sec : Str) :
    (splitStep cfg st sec).chunks ≠ [] ∨ (splitStep cfg st sec).current_chunk ≠ [] := by
  by_cases hbig : cfg.chunk_size < sec.length
  · rw [splitStep_oversized cfg st sec hbig]
    left
    simp [splitOversized_ne_nil cfg sec]
  · by_cases hflush : cfg.chunk_size < st.current_size + sec.length + cfg.separator.length
    · by_cases hcarry : 0 < cfg.chunk_overlap ∧ st.current_chunk ≠ []
      · rw [splitStep_flush_carry cfg st sec hbig hflush hcarry.1 hcarry.2]
        split <;> (left; simp)
      · rw [splitStep_flush_nocarry cfg st sec hbig hflush hcarry]
        left; simp
    · rw [splitStep_append cfg st sec hbig hflush]
      right; simp

theorem split_text_ne_nil (cfg : ChunkerCfg) (text : Str) :
    split_text cfg text ≠ [] := by
  rw [split_text]
  obtain ⟨s0, rest, hsecs⟩ : ∃ a l, splitOnStr cfg.separator text = a :: l := by
    rcases hx : splitOnStr cfg.separator text with _ | ⟨a, l⟩
    · exact absurd hx (splitOnStr_ne_nil _ _)
    · exact ⟨a, l, rfl⟩
  have hP : ((splitOnStr cfg.separator text).foldl (splitStep cfg) ⟨[], [], 0⟩).chunks ≠ [] ∨
      ((splitOnStr cfg.separator text).foldl (splitStep cfg) ⟨[], [], 0⟩).current_chunk ≠ [] := by
    rw [hsecs, List.foldl_cons]
    exact foldl_inv (splitStep cfg)
      (fun st => st.chunks ≠ [] ∨ st.current_chunk ≠ []) (fun _ => True)
      rest _ (fun _ _ => trivial) (splitStep_chunks_or_cur cfg ⟨[], [], 0⟩ s0)
      (fun st a _ _ => splitStep_chunks_or_cur cfg st a)
  rcases hP with h | h
  · intro hx
    exact h (List.append_eq_nil.mp hx).1
  · simp only [List.isEmpty_iff, h, if_false]
    simp

/-! ## The context-packing loop -/

theorem packLoop_spec (est : String → ℕ) (maxT : ℕ) :
    ∀ (l : List RetrievedChunk) (total : ℕ),
      (packLoop est maxT l total).chunks_used ≤ l.length ∧
      (packLoop est maxT l total).context_parts =
        (l.map (fun c => c.content)).take (packLoop est maxT l total).chunks_used ∧
      (packLoop est maxT l total).sources =
        ((l.take (packLoop est maxT l total).chunks_used).filter
          (fun c => !c.metadata.isEmpty)).map mkSource ∧
      (packLoop est maxT l total).total_tokens =
        total + ((l.map (fun c => est c.content)).take
          (packLoop est maxT l total).chunks_used).sum ∧
      (total ≤ maxT → (packLoop est maxT l total).total_tokens ≤ maxT) ∧
      ((packLoop est maxT l total).chunks_used = l.length ∨
        maxT < total + ((l.map (fun c => est c.content)).take
          ((packLoop est maxT l total).chunks_used + 1)).sum) := by
  intro l
  induction l with
  | nil =>
    intro total
    simp [packLoop]
  | cons c rest ih =>
    intro total
    rw [packLoop]
    by_cases hstop : maxT < total + est c.content
    · rw [if_pos hstop]
      refine ⟨by simp, by simp, by simp, by simp, fun h => h, Or.inr ?_⟩
      simpa using hstop
    · rw [if_neg hstop]
      obtain ⟨ih1, ih2, ih3, ih4, ih5, ih6⟩ := ih (total + est c.content)
      dsimp only
      refine ⟨by simpa using Nat.succ_le_succ ih1, ?_, ?_, ?_, ?_, ?_⟩
      · simp [List.take_succ_cons, ih2]
      · rw [List.take_succ_cons, List.filter_cons]
        by_cases hmeta : c.metadata.isEmpty
        · simp [hmeta, ih3]
        · simp only [Bool.not_eq_true] at hmeta
          simp [hmeta, ih3]
      · rw [List.map_cons, List.take_succ_cons, List.sum_cons]
        omega
      · intro _
        exact ih5 (by omega)
      · rcases ih6 with h | h
        · left; simp [h]
        · right
          rw [List.map_cons, List.take_succ_cons, List.sum_cons]
          omega

/-! ## The retrieval filter -/

theorem foldl_append_if_eq_filter_map {α β : Type} (p : α → Prop) [DecidablePred p]
    (f : α → β) :
    ∀ (l : List α) (init : List β),
      l.foldl (fun acc x => if p x then acc ++ [f x] else acc) init =
        init ++ (l.filter (fun x => decide (p x))).map f := by
  intro l
  induction l with
  | nil => intro init; simp
  | cons x xs ih =>
    intro init
    rw [List.foldl_cons, List.filter_cons]
    by_cases hx : p x
    · rw [if_pos hx, ih]
      simp [hx]
    · rw [if_neg hx, ih]
      simp [hx]

theorem chunk_document_contents (cfg : ChunkerCfg) (d : Document)
    (h : ¬ d.content = []) :
    ((chunk_document cfg d).chunks).map (fun c => c.content) =
      split_text cfg d.content := by
  rw [chunk_document, if_neg (by simpa [List.isEmpty_iff] using h)]
  simp only [List.map_map]
  have : ((fun c : DocumentChunk => c.content) ∘ fun ic : ℕ × Str =>
      ({ content := ic.2, metadata := d.metadata,
         chunk_id := d.doc_id ++ "_chunk_" ++ toString ic.1,
         source_file := d.source_file, chunk_index := ic.1 } : DocumentChunk)) =
      Prod.snd := rfl
  rw [this]
  exact List.enum_map_snd _



/-! ## Claims -/

/-- C1: `Retriever.retrieve` converts each returned distance `d` to the
similarity `1 - d` and returns, in the index's ranking order and without
re-sorting, exactly the records whose similarity is at least
`similarity_threshold` (the boundary is inclusive, the comparison
being `≥`). -/
theorem C1_retrieve_threshold_filter (th : ℚ) (ids : List String)
    (distances : List ℚ) (metadatas : List (List (String × String)))
    (documents : List String) :
    retrieve th ids distances metadatas documents =
      ((ids.zip (distances.zip (metadatas.zip documents))).filter
          (fun r => decide (th ≤ 1 - r.2.1))).map
        (fun r => { chunk_id := r.1, similarity_score := 1 - r.2.1,
                    metadata := r.2.2.1, content := r.2.2.2 }) := by
  show (ids.zip ((distances.map (fun d => 1 - d)).zip (metadatas.zip documents))).foldl
      (fun acc r =>
        if th ≤ r.2.1 then
          acc ++ [({ chunk_id := r.1, similarity_score := r.2.1,
                     metadata := r.2.2.1, content := r.2.2.2 } : RetrievedChunk)]
        else acc) [] = _
  rw [foldl_append_if_eq_filter_map
      (fun r : String × ℚ × List (String × String) × String => th ≤ r.2.1)
      (fun r : String × ℚ × List (String × String) × String =>
        ({ chunk_id := r.1, similarity_score := r.2.1, metadata := r.2.2.1,
           content := r.2.2.2 } : RetrievedChunk))]
  rw [List.zip_map_left, List.zip_map_right, List.filter_map, List.map_map]
  simp [Function.comp_def, Prod.map]

/-- C2 counterexample: for `"ab\ncd"` with `chunk_size=3`,
`chunk_overlap=0`, separator `"\n"`, the produced chunks are `"ab"` and
`"cd"`: their concatenation is `"abcd"`, not the original content, and the
newline character of the content appears in no chunk. -/
theorem C2_counterexample :
    ((chunk_document cfgSmall docAbCd).chunks.map (fun c => c.content)).flatten ≠
        docAbCd.content ∧
      '\n' ∈ docAbCd.content ∧
      ∀ c ∈ (chunk_document cfgSmall docAbCd).chunks, '\n' ∉ c.content := by
  decide

/-- C2 amended: with `chunk_overlap = 0`, joining the produced chunks with
the separator (rather than plain concatenation) reconstructs the original
content, provided every separator-delimited section fits in a chunk
together with one separator; plain concatenation loses one separator
occurrence at each chunk boundary. -/
theorem C2_join_reconstructs (cfg : ChunkerCfg) (d : Document)
    (hov : cfg.chunk_overlap = 0) (hd : d.content ≠ [])
    (hsmall : ∀ sec ∈ splitOnStr cfg.separator d.content,
      sec.length + cfg.separator.length ≤ cfg.chunk_size) :
    joinSep cfg.separator ((chunk_document cfg d).chunks.map (fun c => c.content)) =
      d.content := by
  rw [chunk_document_contents cfg d hd]
  exact joinSep_split_text cfg d.content hov hsmall

/-- C2 witness: the amended statement evaluated on `"ab\ncd"`. -/
theorem C2_join_reconstructs_witness :
    cfgSmall.chunk_overlap = 0 ∧ docAbCd.content ≠ [] ∧
      (∀ sec ∈ splitOnStr cfgSmall.separator docAbCd.content,
        sec.length + cfgSmall.separator.length ≤ cfgSmall.chunk_size) ∧
      joinSep cfgSmall.separator
          ((chunk_document cfgSmall docAbCd).chunks.map (fun c => c.content)) =
        docAbCd.content :=
  ⟨by decide, by decide, by decide,
    C2_join_reconstructs cfgSmall docAbCd (by decide) (by decide) (by decide)⟩

set_option maxRecDepth 4000 in
/-- C3 counterexample: chunking `textLong` with `chunk_size=100`,
`chunk_overlap=20` produces a 110-character second chunk that contains a
space (so it is not a single word passed through whole), although every
space-delimited word of every line of the input is at most 100 characters
long. -/
theorem C3_counterexample :
    (split_text cfg100 textLong)[1]? = some chunkLong ∧
      chunkLong.length = 110 ∧ ' ' ∈ chunkLong ∧
      ∀ sec ∈ splitOnStr ['\n'] textLong, ∀ w ∈ splitOnStr [' '] sec,
        w.length ≤ 100 := by
  decide

/-- C3 amended: with `chunk_size=100`, `chunk_overlap=20` and any
separator of at most 20 characters, every produced chunk is at most
`chunk_size + chunk_overlap = 120` characters long, except chunks that
contain no space (a single space-delimited word passed through whole by
the word packer may have any length). -/
theorem C3_chunk_length_bound (sep : Str) (text : Str) (hsep : sep.length ≤ 20) :
    ∀ c ∈ split_text ⟨100, 20, sep⟩ text,
      c.length ≤ 120 ∨ ∀ a ∈ c, a ≠ ' ' := by
  intro c hc
  exact (split_text_good ⟨100, 20, sep⟩ hsep text c hc).mono (by norm_num)

/-- C3 witness: the amended bound evaluated on a small text. -/
theorem C3_chunk_length_bound_witness :
    (['\n'] : Str).length ≤ 20 ∧
      ∀ c ∈ split_text ⟨100, 20, ['\n']⟩ "ab cd".toList,
        c.length ≤ 120 ∨ ∀ a ∈ c, a ≠ ' ' :=
  ⟨by decide, C3_chunk_length_bound ['\n'] "ab cd".toList (by decide)⟩



/-- C4: given a non-empty filtered result list, `retrieve_and_build_context`
packs a prefix of the results greedily: the context is the `"\n\n"`-join of
the contents of the first `chunks_used` results, `total_tokens` is their
token sum and never exceeds `max_tokens`, and packing stops exactly at the
first chunk that would overflow the budget (everything after it is
excluded, even chunks that would individually fit, because only a prefix
is ever included); two chunks `"Content 1"`, `"Content 2"` under an ample
budget yield `"Content 1\n\nContent 2"` with `chunks_used = 2`. -/
theorem C4_greedy_context_packing (retrieved : List RetrievedChunk) (query : String)
    (max_tokens : ℕ) (est : String → ℕ) (h : retrieved ≠ []) :
    (retrieve_and_build_context retrieved query max_tokens est).context =
      String.intercalate "\n\n" ((retrieved.map (fun c => c.content)).take
        (retrieve_and_build_context retrieved query max_tokens est).chunks_used) ∧
    (retrieve_and_build_context retrieved query max_tokens est).chunks_used ≤
      retrieved.length ∧
    (retrieve_and_build_context retrieved query max_tokens est).total_tokens =
      some (((retrieved.map (fun c => est c.content)).take
        (retrieve_and_build_context retrieved query max_tokens est).chunks_used).sum) ∧
    ((retrieved.map (fun c => est c.content)).take
      (retrieve_and_build_context retrieved query max_tokens est).chunks_used).sum ≤
        max_tokens ∧
    ((retrieve_and_build_context retrieved query max_tokens est).chunks_used =
        retrieved.length ∨
      max_tokens < ((retrieved.map (fun c => est c.content)).take
        ((retrieve_and_build_context retrieved query max_tokens est).chunks_used + 1)).sum) ∧
    (retrieve_and_build_context [rcContent1, rcContent2] "test query" 2000
        defaultTokenEstimator).context = "Content 1\n\nContent 2" ∧
    (retrieve_and_build_context [rcContent1, rcContent2] "test query" 2000
        defaultTokenEstimator).chunks_used = 2 := by
  have hne : ¬ retrieved.isEmpty := by simpa [List.isEmpty_iff] using h
  obtain ⟨h1, h2, h3, h4, h5, h6⟩ := packLoop_spec est max_tokens retrieved 0
  rw [retrieve_and_build_context, if_neg hne]
  dsimp only
  refine ⟨?_, h1, ?_, ?_, ?_, by decide, by decide⟩
  · rw [h2]
  · rw [h4]
    simp
  · have h5z := h5 (Nat.zero_le _)
    omega
  · rcases h6 with hx | hx
    · exact Or.inl hx
    · exact Or.inr (by simpa using hx)

/-- C4 witness: the theorem applied to a singleton result list. -/
theorem C4_greedy_context_packing_witness :
    ([rcContent1] : List RetrievedChunk) ≠ [] ∧
      (retrieve_and_build_context [rcContent1] "q" 2000
        defaultTokenEstimator).chunks_used ≤ 1 :=
  ⟨by decide,
    by simpa using
      (C4_greedy_context_packing [rcContent1] "q" 2000 defaultTokenEstimator
        (by decide)).2.1⟩

/-- C5: chunking is idempotent and deterministic: re-chunking a chunked
document with the same configuration yields the identical document (the
chunk sequence is replaced, not appended to), and chunk `i` carries id
`f"{doc_id}_chunk_{i}"`. -/
theorem C5_chunking_idempotent (cfg : ChunkerCfg) (d : Document) :
    chunk_document cfg (chunk_document cfg d) = chunk_document cfg d ∧
    (¬ d.content = [] → ∀ (i : ℕ) (c : DocumentChunk),
      (chunk_document cfg d).chunks[i]? = some c →
      c.chunk_id = d.doc_id ++ "_chunk_" ++ toString i) := by
  constructor
  · by_cases h : d.content.isEmpty
    · simp [chunk_document, h]
    · simp [chunk_document, h]
  · intro hne i c hc
    rw [chunk_document, if_neg (by simpa [List.isEmpty_iff] using hne)] at hc
    dsimp only at hc
    rw [List.getElem?_map, List.getElem?_enum] at hc
    rcases hx : (split_text cfg d.content)[i]? with _ | v
    · rw [hx] at hc
      simp at hc
    · rw [hx] at hc
      simp only [Option.map_some'] at hc
      have := Option.some.inj hc
      rw [← this]

/-- C5 witness: idempotence and the id shape evaluated on `"ab\ncd"`. -/
theorem C5_chunking_idempotent_witness :
    chunk_document cfgSmall (chunk_document cfgSmall docAbCd) =
      chunk_document cfgSmall docAbCd ∧
    ¬ docAbCd.content = [] ∧
    (⟨"ab".toList, [("title", "T")], "d_chunk_0", "t.txt", 0⟩ :
        DocumentChunk).chunk_id =
      docAbCd.doc_id ++ "_chunk_" ++ toString 0 :=
  ⟨(C5_chunking_idempotent cfgSmall docAbCd).1, by decide,
    (C5_chunking_idempotent cfgSmall docAbCd).2 (by decide) 0
      ⟨"ab".toList, [("title", "T")], "d_chunk_0", "t.txt", 0⟩ (by decide)⟩

/-- C6: when a section triggers a flush, the flushed chunk is the joined
buffer, and the new buffer is: the section pieces after the first
separator occurrence inside the last `chunk_overlap` characters of the
flushed buffer when that overlap window contains a separator, or empty
when it does not (never a partial section) — followed by the triggering
section. -/
theorem C6_overlap_carryover (cfg : ChunkerCfg) (st : SplitState) (sec : Str)
    (hsep : cfg.separator ≠ []) (hov : 0 < cfg.chunk_overlap)
    (hcur : st.current_chunk ≠ []) (hbig : ¬ cfg.chunk_size < sec.length)
    (hflush : cfg.chunk_size < st.current_size + sec.length + cfg.separator.length) :
    (splitStep cfg st sec).chunks =
      st.chunks ++ [joinSep cfg.separator st.current_chunk] ∧
    (splitStep cfg st sec).current_chunk =
      (if occursIn cfg.separator (lastN cfg.chunk_overlap
          (joinSep cfg.separator st.current_chunk)) = true then
        (splitOnStr cfg.separator (lastN cfg.chunk_overlap
          (joinSep cfg.separator st.current_chunk))).tail
      else []) ++ [sec] := by
  rw [splitStep_flush_carry cfg st sec hbig hflush hov hcur]
  by_cases hp : 1 < (splitOnStr cfg.separator (lastN cfg.chunk_overlap
      (joinSep cfg.separator st.current_chunk))).length
  · have ho : occursIn cfg.separator (lastN cfg.chunk_overlap
        (joinSep cfg.separator st.current_chunk)) = true :=
      (occursIn_iff_one_lt_length_splitOnStr _ _ hsep).mpr hp
    rw [if_pos hp]
    exact ⟨rfl, by rw [if_pos ho]⟩
  · have ho : ¬ occursIn cfg.separator (lastN cfg.chunk_overlap
        (joinSep cfg.separator st.current_chunk)) = true := fun hx =>
      hp ((occursIn_iff_one_lt_length_splitOnStr _ _ hsep).mp hx)
    rw [if_neg hp]
    exact ⟨rfl, by rw [if_neg ho]; rfl⟩

/-- C6 witness: the carry-over evaluated on a concrete flush. -/
theorem C6_overlap_carryover_witness :
    cfgCarry.separator ≠ [] ∧ 0 < cfgCarry.chunk_overlap ∧
      stCarry.current_chunk ≠ [] ∧
      ¬ cfgCarry.chunk_size < ("xyz".toList : Str).length ∧
      cfgCarry.chunk_size < stCarry.current_size + ("xyz".toList : Str).length +
        cfgCarry.separator.length ∧
      (splitStep cfgCarry stCarry "xyz".toList).chunks =
        stCarry.chunks ++ [joinSep cfgCarry.separator stCarry.current_chunk] ∧
      (splitStep cfgCarry stCarry "xyz".toList).current_chunk =
        (if occursIn cfgCarry.separator (lastN cfgCarry.chunk_overlap
            (joinSep cfgCarry.separator stCarry.current_chunk)) = true then
          (splitOnStr cfgCarry.separator (lastN cfgCarry.chunk_overlap
            (joinSep cfgCarry.separator stCarry.current_chunk))).tail
        else []) ++ ["xyz".toList] :=
  ⟨by decide, by decide, by decide, by decide, by decide,
    (C6_overlap_carryover cfgCarry stCarry "xyz".toList (by decide) (by decide)
      (by decide) (by decide) (by decide)).1,
    (C6_overlap_carryover cfgCarry stCarry "xyz".toList (by decide) (by decide)
      (by decide) (by decide) (by decide)).2⟩

/-- C7: on an empty filtered result list, `retrieve_and_build_context`
returns the mapping with empty context, empty source list, zero chunks
used and no `total_tokens` field, while any non-empty result list yields a
response that carries `total_tokens`. -/
theorem C7_empty_retrieval (query : String) (max_tokens : ℕ) (est : String → ℕ) :
    retrieve_and_build_context [] query max_tokens est =
      { context := "", sources := [], query := query, chunks_used := 0,
        total_tokens := none } ∧
    ∀ retrieved : List RetrievedChunk, retrieved ≠ [] →
      ∃ t, (retrieve_and_build_context retrieved query max_tokens est).total_tokens =
        some t := by
  refine ⟨rfl, ?_⟩
  intro retrieved h
  rw [retrieve_and_build_context, if_neg (by simpa [List.isEmpty_iff] using h)]
  exact ⟨_, rfl⟩

/-- C7 witness: both parts evaluated on concrete inputs. -/
theorem C7_empty_retrieval_witness :
    retrieve_and_build_context [] "q" 2000 defaultTokenEstimator =
      { context := "", sources := [], query := "q", chunks_used := 0,
        total_tokens := none } ∧
    ([rcContent1] : List RetrievedChunk) ≠ [] ∧
    ∃ t, (retrieve_and_build_context [rcContent1] "q" 2000
      defaultTokenEstimator).total_tokens = some t :=
  ⟨(C7_empty_retrieval "q" 2000 defaultTokenEstimator).1, by decide,
    (C7_empty_retrieval "q" 2000 defaultTokenEstimator).2 [rcContent1] (by decide)⟩

/-- C8 counterexample: a chunk whose metadata dict is empty is packed into
the context (`chunks_used = 1`) but no source record is emitted for it, so
the sources list does not have one entry per included chunk. -/
theorem C8_counterexample :
    (retrieve_and_build_context [rcNoMeta] "q" 2000
      defaultTokenEstimator).chunks_used = 1 ∧
    (retrieve_and_build_context [rcNoMeta] "q" 2000
      defaultTokenEstimator).sources = [] := by
  decide

/-- C8 amended: a source record (chunk id, similarity score, and the
`title`/`source`/`source_file`/`doc_id` keys present in the metadata) is
emitted exactly for each included chunk whose metadata is non-empty, in
order; hence the sources list has at most `chunks_used` entries, with
equality when every included chunk has non-empty metadata. -/
theorem C8_sources_match_nonempty_metadata (retrieved : List RetrievedChunk)
    (query : String) (max_tokens : ℕ) (est : String → ℕ) (h : retrieved ≠ []) :
    (retrieve_and_build_context retrieved query max_tokens est).sources =
      ((retrieved.take
        (retrieve_and_build_context retrieved query max_tokens est).chunks_used).filter
          (fun c => !c.metadata.isEmpty)).map mkSource ∧
    (retrieve_and_build_context retrieved query max_tokens est).sources.length ≤
      (retrieve_and_build_context retrieved query max_tokens est).chunks_used := by
  have hne : ¬ retrieved.isEmpty := by simpa [List.isEmpty_iff] using h
  obtain ⟨h1, _, h3, _⟩ := packLoop_spec est max_tokens retrieved 0
  rw [retrieve_and_build_context, if_neg hne]
  dsimp only
  refine ⟨h3, ?_⟩
  rw [h3, List.length_map]
  refine le_trans (List.length_filter_le _ _) ?_
  rw [List.length_take]
  omega

/-- C8 witness: the amended statement on a chunk with non-empty metadata. -/
theorem C8_sources_match_nonempty_metadata_witness :
    ([rcContent1] : List RetrievedChunk) ≠ [] ∧
    (retrieve_and_build_context [rcContent1] "q" 2000
      defaultTokenEstimator).sources =
      (([rcContent1].take (retrieve_and_build_context [rcContent1] "q" 2000
        defaultTokenEstimator).chunks_used).filter
          (fun c => !c.metadata.isEmpty)).map mkSource :=
  ⟨by decide,
    (C8_sources_match_nonempty_metadata [rcContent1] "q" 2000 defaultTokenEstimator
      (by decide)).1⟩

/-- C9: a document with empty content (and no pre-existing chunks) chunks
to zero chunks, not to a single empty chunk. -/
theorem C9_empty_content_zero_chunks (cfg : ChunkerCfg) (d : Document)
    (h1 : d.content = []) (h2 : d.chunks = []) :
    (chunk_document cfg d).chunks = [] := by
  rw [chunk_document, if_pos (by simp [h1])]
  exact h2

/-- C9 witness: the empty document. -/
theorem C9_empty_content_zero_chunks_witness :
    docEmpty.content = [] ∧ docEmpty.chunks = [] ∧
      (chunk_document cfgSmall docEmpty).chunks = [] :=
  ⟨by decide, by decide,
    C9_empty_content_zero_chunks cfgSmall docEmpty (by decide) (by decide)⟩

/-- C10: every document with non-empty content produces at least one chunk
(for a positive `chunk_size` and non-empty separator), and a produced
chunk's content can nonetheless be empty: the oversized-section word
packer emits an empty sub-chunk when the section's first word alone is at
least `chunk_size` long, as for content `"abcd ef"` with `chunk_size = 3`. -/
theorem C10_nonempty_chunks_and_empty_chunk_possible :
    (∀ (cfg : ChunkerCfg) (d : Document), cfg.separator ≠ [] → 0 < cfg.chunk_size →
      d.content ≠ [] → (chunk_document cfg d).chunks ≠ []) ∧
    [] ∈ (chunk_document cfgSmall docOversized).chunks.map (fun c => c.content) := by
  constructor
  · intro cfg d _ _ hc
    rw [chunk_document, if_neg (by simpa [List.isEmpty_iff] using hc)]
    dsimp only
    intro hx
    exact split_text_ne_nil cfg d.content
      (by simpa [List.map_eq_nil_iff, List.enum_eq_nil] using hx)
  · decide

/-- C10 witness: the universal part applied to `"ab\ncd"`. -/
theorem C10_nonempty_chunks_witness :
    cfgSmall.separator ≠ [] ∧ 0 < cfgSmall.chunk_size ∧
      docAbCd.content ≠ [] ∧ (chunk_document cfgSmall docAbCd).chunks ≠ [] :=
  ⟨by decide, by decide, by decide,
    C10_nonempty_chunks_and_empty_chunk_possible.1 cfgSmall docAbCd
      (by decide) (by decide) (by decide)⟩


end RagCore
